import Mathlib

/-
Verification of the handler-composition and attribute core of zalgonoise/logx.

The embedding below translates the Go source:
  * `src/unnamed/part_000` — package handlers: the `multiHandler` composite and
    the `Multi` constructor.
  * `src/attr/attribute.go` — package attr: the generic `attr[T]` key/value
    container and its JSON serialization.

Modelling conventions:
  * A Go interface value of type `Handler` is `Option HandlerVal`: `none` is the
    nil interface, `some v` a concrete handler.  A concrete handler is either an
    opaque leaf (externally supplied; its six interface methods are arbitrary
    functions) or the package's `multiHandler` holding a child list.
  * `level.Level`, `records.Record` and `attr.Attr` are opaque to the handlers
    package, so they are modelled as `Nat`.
  * Go errors are modelled by `GoError`: a message plus an optional wrapped
    inner error (the `%w` chain); `GoError.chain` is the `errors.Unwrap` chain
    that `errors.Is` walks.
  * Go panics on calling a method of a nil interface.  The `none` cases inside
    the child-list loops below (marked "unreachable") never arise from code of
    the package — the `Multi` constructor never stores a nil child (proved as
    the flatness invariant) — and are modelled as no-ops.
  * In the attr package, the generic parameter `T` is modelled by the dynamic
    type of the construction value (`typeOf`), which matches every concrete
    (non-interface) instantiation of `New`.  The untyped nil replacement value
    of `WithValue` is the `none` argument.  A Go `map[string]any` is modelled
    as an insertion-ordered association list where assigning to an existing key
    replaces its value in place; the claims under study never depend on
    iteration order.
-/

set_option autoImplicit false

namespace Logx

/-- Opaque log level (`level.Level` in the source). -/
abbrev Level := Nat

/-- Opaque log record (`records.Record` in the source). -/
abbrev Record := Nat

/-- Opaque attribute as seen by the handlers package (`attr.Attr`). -/
abbrev HAttr := Nat

/-- A Go error value: a message, optionally wrapping an inner error
(as produced by `fmt.Errorf` with `%w`). -/
inductive GoError where
  | base (m : String)
  | wrap (m : String) (inner : GoError)
deriving DecidableEq, Repr

/-- The `Error()` message of a `GoError`. -/
def GoError.msg : GoError → String
  | .base m => m
  | .wrap m _ => m

/-- The `errors.Unwrap` chain starting at this error (the error itself first);
`errors.Is e target` succeeds exactly when `target` is in `e.chain`. -/
def GoError.chain : GoError → List GoError
  | .base m => [.base m]
  | .wrap m inner => .wrap m inner :: inner.chain

/-- A concrete (non-nil) `handlers.Handler` value: either an opaque external
leaf carrying its six interface methods, or the package's `multiHandler`
(`src/unnamed/part_000`, `type multiHandler struct { handlers []Handler }`).
A nil interface child inside the list is `none`. -/
inductive HandlerVal where
  | leaf (enabled : Level → Bool)
         (handle : Record → Option GoError)
         (withA : List HAttr → Option HandlerVal)
         (withSource : Bool → Option HandlerVal)
         (withLevel : Level → Option HandlerVal)
         (withReplaceFn : (HAttr → HAttr) → Option HandlerVal)
  | multi (handlers : List (Option HandlerVal))

/-- The flattening loop in the `default` branch of `Multi`
(`src/unnamed/part_000` lines 25-37): nil inputs are skipped, a nested
`multiHandler` contributes its children, anything else is kept as is. -/
def multiFlatten : List (Option HandlerVal) → List (Option HandlerVal)
  | [] => []
  | none :: rest => multiFlatten rest
  | some (.multi hs) :: rest => hs ++ multiFlatten rest
  | some h :: rest => some h :: multiFlatten rest

/-- `handlers.Multi` (`src/unnamed/part_000` lines 19-41): zero arguments give
nil, one argument is returned as is, otherwise the flattened list is wrapped
in a new `multiHandler`. -/
def Multi : List (Option HandlerVal) → Option HandlerVal
  | [] => none
  | [h] => h
  | hs => some (.multi (multiFlatten hs))

mutual

/-- `Handler.Enabled` dispatch; for `multiHandler` this is
`src/unnamed/part_000` lines 45-52. -/
def HandlerVal.Enabled : HandlerVal → Level → Bool
  | .leaf e _ _ _ _ _, l => e l
  | .multi hs, l => enabledChildren hs l

/-- The loop of `multiHandler.Enabled`: returns false at the first child
filtering the level, true when every child accepts it.  The `none` case is
unreachable (Go would panic); modelled as skipping. -/
def enabledChildren : List (Option HandlerVal) → Level → Bool
  | [], _ => true
  | none :: rest, l => enabledChildren rest l
  | some h :: rest, l => if h.Enabled l then enabledChildren rest l else false

end

/-- The error-accumulation step inside `multiHandler.Handle`
(`src/unnamed/part_000` lines 58-65): a nil child error leaves the
accumulator alone; the first error is kept as is; a further error becomes
`fmt.Errorf("%v -- %w", handlerErr, err)` — the new message reads first and
only the previous accumulated error is wrapped. -/
def accErr : Option GoError → Option GoError → Option GoError
  | none, acc => acc
  | some e, none => some e
  | some e, some prev => some (.wrap (e.msg ++ " -- " ++ prev.msg) prev)

mutual

/-- `Handler.Handle` dispatch; for `multiHandler` this is
`src/unnamed/part_000` lines 55-68. -/
def HandlerVal.Handle : HandlerVal → Record → Option GoError
  | .leaf _ h _ _ _ _, r => h r
  | .multi hs, r => handleChildren hs r none

/-- The loop of `multiHandler.Handle`: every child is invoked in order, the
errors are folded with `accErr`.  The `none` case is unreachable (Go would
panic); modelled as skipping. -/
def handleChildren : List (Option HandlerVal) → Record → Option GoError → Option GoError
  | [], _, acc => acc
  | none :: rest, r, acc => handleChildren rest r acc
  | some h :: rest, r, acc => handleChildren rest r (accErr (h.Handle r) acc)

end

mutual

/-- `Handler.With` dispatch; for `multiHandler` this is
`src/unnamed/part_000` lines 72-78: every child spawns its own copy and the
new list is re-wrapped through `Multi`. -/
def HandlerVal.With : HandlerVal → List HAttr → Option HandlerVal
  | .leaf _ _ w _ _ _, as => w as
  | .multi hs, as => Multi (mapWith hs as)

/-- The rebuild loop of `multiHandler.With`.  The `none` case is unreachable
(Go would panic); modelled as a nil slot. -/
def mapWith : List (Option HandlerVal) → List HAttr → List (Option HandlerVal)
  | [], _ => []
  | none :: rest, as => none :: mapWith rest as
  | some h :: rest, as => h.With as :: mapWith rest as

end

mutual

/-- `Handler.WithSource` dispatch; for `multiHandler` this is
`src/unnamed/part_000` lines 82-88. -/
def HandlerVal.WithSource : HandlerVal → Bool → Option HandlerVal
  | .leaf _ _ _ w _ _, b => w b
  | .multi hs, b => Multi (mapWithSource hs b)

/-- The rebuild loop of `multiHandler.WithSource`. -/
def mapWithSource : List (Option HandlerVal) → Bool → List (Option HandlerVal)
  | [], _ => []
  | none :: rest, b => none :: mapWithSource rest b
  | some h :: rest, b => h.WithSource b :: mapWithSource rest b

end

mutual

/-- `Handler.WithLevel` dispatch; for `multiHandler` this is
`src/unnamed/part_000` lines 92-98. -/
def HandlerVal.WithLevel : HandlerVal → Level → Option HandlerVal
  | .leaf _ _ _ _ w _, l => w l
  | .multi hs, l => Multi (mapWithLevel hs l)

/-- The rebuild loop of `multiHandler.WithLevel`. -/
def mapWithLevel : List (Option HandlerVal) → Level → List (Option HandlerVal)
  | [], _ => []
  | none :: rest, l => none :: mapWithLevel rest l
  | some h :: rest, l => h.WithLevel l :: mapWithLevel rest l

end

mutual

/-- `Handler.WithReplaceFn` dispatch; for `multiHandler` this is
`src/unnamed/part_000` lines 102-108. -/
def HandlerVal.WithReplaceFn : HandlerVal → (HAttr → HAttr) → Option HandlerVal
  | .leaf _ _ _ _ _ w, f => w f
  | .multi hs, f => Multi (mapWithReplaceFn hs f)

/-- The rebuild loop of `multiHandler.WithReplaceFn`. -/
def mapWithReplaceFn : List (Option HandlerVal) → (HAttr → HAttr) → List (Option HandlerVal)
  | [], _ => []
  | none :: rest, f => none :: mapWithReplaceFn rest f
  | some h :: rest, f => h.WithReplaceFn f :: mapWithReplaceFn rest f

end

/-- Whether a concrete handler is the package's `multiHandler`
(the `handler.(multiHandler)` type assertion). -/
def isMulti : HandlerVal → Bool
  | .multi _ => true
  | .leaf _ _ _ _ _ _ => false

/-- A child list is flat: every slot holds a concrete handler that is not
itself a `multiHandler`. -/
def flatChildren : List (Option HandlerVal) → Bool
  | [] => true
  | none :: _ => false
  | some h :: rest => !isMulti h && flatChildren rest

/-- A concrete handler satisfies the construction invariant: if it is a
`multiHandler`, its child list is flat. -/
def flatH : HandlerVal → Bool
  | .leaf _ _ _ _ _ _ => true
  | .multi hs => flatChildren hs

/-- Every concrete handler among the inputs satisfies the invariant. -/
def flatInputs (hs : List (Option HandlerVal)) : Bool :=
  hs.all (fun c => c.elim true flatH)

/-- Whether a `Handler` interface value holds the `multiHandler` composite. -/
def isMultiO : Option HandlerVal → Bool
  | some (.multi _) => true
  | _ => false

/-- A leaf handler that accepts every level and never errs. -/
def leafOk : HandlerVal :=
  .leaf (fun _ => true) (fun _ => none) (fun _ => none) (fun _ => none)
    (fun _ => none) (fun _ => none)

/-- A leaf handler that accepts every level and always fails with `.base m`. -/
def leafErr (m : String) : HandlerVal :=
  .leaf (fun _ => true) (fun _ => some (.base m)) (fun _ => none) (fun _ => none)
    (fun _ => none) (fun _ => none)

/-- A leaf handler that rejects every level and never errs. -/
def leafDis : HandlerVal :=
  .leaf (fun _ => false) (fun _ => none) (fun _ => none) (fun _ => none)
    (fun _ => none) (fun _ => none)

/-- The pure error fold corresponding to the `Handle` loop: each child's
result is combined into the accumulator with `accErr`. -/
def runErrs : List (Option GoError) → Option GoError → Option GoError
  | [], acc => acc
  | o :: rest, acc => runErrs rest (accErr o acc)

/-- Concatenation of messages with the `" -- "` separator used by
`fmt.Errorf("%v -- %w", ...)` in `multiHandler.Handle`. -/
def joinMsgs : List String → String
  | [] => ""
  | m :: rest =>
    match rest with
    | [] => m
    | _ :: _ => m ++ " -- " ++ joinMsgs rest

/-- The errors discovered by `multiHandler.Handle` across the children `cs`
on record `r`: the non-nil results of each child's `Handle`, in list
(= discovery) order. -/
def discoveredErrs (cs : List HandlerVal) (r : Record) : List GoError :=
  (cs.map fun h => h.Handle r).filterMap id

/-- Runtime type tags for the attr package model.  `tattr` and `tattrs` stand
for the `Attr` / `[]Attr` cases of the serialization type switches; the inner
generic parameter of a nested attribute is not tracked, which is irrelevant to
the claims under study. -/
inductive GoType where
  | tint
  | tstr
  | tbool
  | tattr
  | tattrs
deriving DecidableEq, Repr

mutual

/-- A concrete `attr.attr[T]` value (`src/attr/attribute.go` lines 42-45):
its key, the declared generic type `T`, and the stored value. -/
inductive AttrVal where
  | mk (key : String) (t : GoType) (value : GoValue)

/-- The values an attribute can store in this model: flat values, a nested
attribute (`Attr`), or a sequence of attributes (`[]Attr`, whose members may
be nil interfaces). -/
inductive GoValue where
  | vint (n : Int)
  | vstr (s : String)
  | vbool (b : Bool)
  | vattr (a : AttrVal)
  | vattrs (l : List (Option AttrVal))

end

/-- The key of an attribute (`attr.Key`). -/
def AttrVal.key : AttrVal → String
  | .mk k _ _ => k

/-- The declared generic type of an attribute. -/
def AttrVal.t : AttrVal → GoType
  | .mk _ t _ => t

/-- The stored value of an attribute (`attr.Value`). -/
def AttrVal.value : AttrVal → GoValue
  | .mk _ _ v => v

/-- The Go runtime type of a value, as compared by the `value.(T)` type
assertion in `attr.WithValue`. -/
def typeOf : GoValue → GoType
  | .vint _ => .tint
  | .vstr _ => .tstr
  | .vbool _ => .tbool
  | .vattr _ => .tattr
  | .vattrs _ => .tattrs

/-- `attr.New` (`src/attr/attribute.go` lines 32-40): an empty key yields the
absent attribute, otherwise the attribute stores the key and value, with the
generic type fixed by the construction value. -/
def New (key : String) (value : GoValue) : Option AttrVal :=
  if key = "" then none else some (.mk key (typeOf value) value)

/-- `attr.WithKey` (`src/attr/attribute.go` lines 58-64): an empty key yields
the absent attribute, otherwise a copy keyed by `key` via `New`. -/
def AttrVal.WithKey (a : AttrVal) (key : String) : Option AttrVal :=
  if key = "" then none else New key a.value

/-- `attr.WithValue` (`src/attr/attribute.go` lines 66-79): an untyped nil
replacement (`none`) yields the absent attribute; a typed replacement is
accepted only when its runtime type is the declared generic type, in which
case a copy with the same key is built via `New`. -/
def AttrVal.WithValue (a : AttrVal) (value : Option GoValue) : Option AttrVal :=
  match value with
  | none => none
  | some v => if typeOf v = a.t then New a.key v else none

/-- A JSON document, as produced by `json.Marshal`: objects are modelled as
insertion-ordered association lists. -/
inductive JValue where
  | num (n : Int)
  | str (s : String)
  | bool (b : Bool)
  | null
  | obj (entries : List (String × JValue))
  | arr (elems : List JValue)

/-- Assignment `kv[k] = v` into a Go map modelled as an association list:
replaces the value at an existing key in place, otherwise appends. -/
def mapSet : List (String × JValue) → String → JValue → List (String × JValue)
  | [], k, v => [(k, v)]
  | (k', v') :: rest, k, v =>
    if k' = k then (k, v) :: rest else (k', v') :: mapSet rest k v

mutual

/-- How `json.Marshal` encodes a value stored as `any` in the maps below:
flat values directly; a raw `Attr` through its `MarshalJSON` method; a raw
`[]Attr` as a JSON array (nil members as null). -/
def encodeValue : GoValue → JValue
  | .vint n => .num n
  | .vstr s => .str s
  | .vbool b => .bool b
  | .vattr a => .obj (attrMarshalJSON a)
  | .vattrs l => .arr (encodeAttrList l)
termination_by v => sizeOf v

/-- Generic encoding of the members of a raw `[]Attr` value. -/
def encodeAttrList : List (Option AttrVal) → List JValue
  | [] => []
  | none :: rest => .null :: encodeAttrList rest
  | some a :: rest => .obj (attrMarshalJSON a) :: encodeAttrList rest
termination_by l => sizeOf l

/-- `attr.MarshalJSON` (`src/attr/attribute.go` lines 101-113): a single-entry
map from the key; a `[]Attr` value maps through `mapAttrs`, a single `Attr`
value maps through `mapAttrs` of the one-element list (`mapAttrEntry` is
exactly one pass of that loop on the empty map), anything else is stored as
is. -/
def attrMarshalJSON : AttrVal → List (String × JValue)
  | .mk k _ (.vattrs l) => [(k, .obj (mapAttrsGo l []))]
  | .mk k _ (.vattr w) => [(k, .obj (mapAttrEntry [] w))]
  | .mk k _ (.vint n) => [(k, .num n)]
  | .mk k _ (.vstr s) => [(k, .str s)]
  | .mk k _ (.vbool b) => [(k, .bool b)]
termination_by a => sizeOf a

/-- The body of the `attr.mapAttrs` loop (`src/attr/attribute.go` lines
86-96) for one non-nil attribute: a `[]Attr` value recurses into a fresh
map; a single `Attr` value stores the inner attribute's bare `Value()` (its
key is not used); flat values are stored as is. -/
def mapAttrEntry (acc : List (String × JValue)) : AttrVal → List (String × JValue)
  | .mk k _ (.vattrs l) => mapSet acc k (.obj (mapAttrsGo l []))
  | .mk k _ (.vattr (.mk _ _ v)) => mapSet acc k (encodeValue v)
  | .mk k _ (.vint n) => mapSet acc k (.num n)
  | .mk k _ (.vstr s) => mapSet acc k (.str s)
  | .mk k _ (.vbool b) => mapSet acc k (.bool b)
termination_by a => sizeOf a

/-- The loop of `attr.mapAttrs` (`src/attr/attribute.go` lines 81-98) with
the map under construction as accumulator: nil attributes are skipped, each
non-nil attribute is folded in by `mapAttrEntry`. -/
def mapAttrsGo : List (Option AttrVal) → List (String × JValue) → List (String × JValue)
  | [], acc => acc
  | none :: rest, acc => mapAttrsGo rest acc
  | some a :: rest, acc => mapAttrsGo rest (mapAttrEntry acc a)
termination_by l _ => sizeOf l

end

/-- `attr.mapAttrs` run on a fresh map. -/
def mapAttrs (l : List (Option AttrVal)) : List (String × JValue) :=
  mapAttrsGo l []

/-- The loop of `Attrs.MarshalJSON` (`src/attr/attribute.go` lines 189-196):
each member's key and raw value are stored with no nil check, so a nil member
makes the method call `a.Key()` on a nil interface and panic (modelled as
`none`). -/
def attrsMarshalGo : List (Option AttrVal) → List (String × JValue) → Option (List (String × JValue))
  | [], acc => some acc
  | none :: _, _ => none
  | some a :: rest, acc => attrsMarshalGo rest (mapSet acc a.key (encodeValue a.value))

/-- `Attrs.MarshalJSON` run on a fresh map; `none` is a panic. -/
def AttrsMarshalJSON (l : List (Option AttrVal)) : Option (List (String × JValue)) :=
  attrsMarshalGo l []

/-- Whether a value is flat (neither an `Attr` nor a `[]Attr`), i.e. hits the
`default` branch of the serialization type switches. -/
def isFlat : GoValue → Bool
  | .vattr _ => false
  | .vattrs _ => false
  | _ => true

/-- Lookup in a JSON object modelled as an association list. -/
def lookupJ (entries : List (String × JValue)) (k : String) : Option JValue :=
  match entries with
  | [] => none
  | (k', v) :: rest => if k' = k then some v else lookupJ rest k

/-- Follow a path of keys through nested JSON objects. -/
def pathLookup (j : JValue) : List String → Option JValue
  | [] => some j
  | k :: rest =>
    match j with
    | .obj entries =>
      match lookupJ entries k with
      | some v => pathLookup v rest
      | none => none
    | _ => none

@[simp] theorem leafOk_handle (r : Record) : leafOk.Handle r = none := rfl

@[simp] theorem leafOk_enabled (l : Level) : leafOk.Enabled l = true := rfl

@[simp] theorem leafErr_handle (m : String) (r : Record) :
    (leafErr m).Handle r = some (.base m) := rfl

@[simp] theorem leafDis_enabled (l : Level) : leafDis.Enabled l = false := rfl

/-- The `Enabled` loop over an all-concrete child list is the conjunction of
the children's `Enabled` results. -/
theorem enabledChildren_map_some (cs : List HandlerVal) (l : Level) :
    enabledChildren (cs.map some) l = cs.all (fun h => h.Enabled l) := by
  induction cs with
  | nil => rfl
  | cons h rest ih => by_cases he : h.Enabled l <;> simp [enabledChildren, he, ih]

/-- The `Enabled` loop is false whenever some child is disabled, whatever
comes after it: the elements past the first disabled child are never used. -/
theorem enabledChildren_shortCircuit (pre : List HandlerVal) (h : HandlerVal)
    (rest : List (Option HandlerVal)) (l : Level) (hh : h.Enabled l = false) :
    enabledChildren (pre.map some ++ some h :: rest) l = false := by
  induction pre with
  | nil => simp [enabledChildren, hh]
  | cons p pre ih => by_cases hp : p.Enabled l <;> simp [enabledChildren, hp, ih]

/-- The `Handle` loop processes an appended list by first folding the
prefix's errors, then continuing with the suffix from that accumulator. -/
theorem handleChildren_append (l1 l2 : List (Option HandlerVal)) (r : Record)
    (acc : Option GoError) :
    handleChildren (l1 ++ l2) r acc = handleChildren l2 r (handleChildren l1 r acc) := by
  induction l1 generalizing acc with
  | nil => rfl
  | cons c rest ih => cases c <;> simp [handleChildren, ih]

/-- The `Handle` loop leaves the accumulator alone when every child
succeeds. -/
theorem handleChildren_all_none (cs : List HandlerVal) (r : Record) (acc : Option GoError)
    (h : ∀ h' ∈ cs, h'.Handle r = none) :
    handleChildren (cs.map some) r acc = acc := by
  induction cs generalizing acc with
  | nil => rfl
  | cons c rest ih =>
    have hc : c.Handle r = none := h c (by simp)
    simp only [List.map_cons, handleChildren, hc, accErr]
    exact ih acc (fun h' hm => h h' (by simp [hm]))

/-- The `Handle` loop over an all-concrete child list is the pure fold of
the children's individual results, in list order. -/
theorem handleChildren_map_some (cs : List HandlerVal) (r : Record) (acc : Option GoError) :
    handleChildren (cs.map some) r acc = runErrs (cs.map fun h => h.Handle r) acc := by
  induction cs generalizing acc with
  | nil => rfl
  | cons h rest ih => simp [handleChildren, runErrs, ih]

/-- Nil results contribute nothing to the error fold: only the discovered
errors matter. -/
theorem runErrs_filterMap (rs : List (Option GoError)) (acc : Option GoError) :
    runErrs rs acc = runErrs ((rs.filterMap id).map some) acc := by
  induction rs generalizing acc with
  | nil => rfl
  | cons o rest ih => cases o <;> simp [runErrs, accErr, ih]

@[simp] theorem joinMsgs_nil : joinMsgs [] = "" := rfl

@[simp] theorem joinMsgs_single (m : String) : joinMsgs [m] = m := rfl

@[simp] theorem joinMsgs_cons (m x : String) (rest : List String) :
    joinMsgs (m :: x :: rest) = m ++ " -- " ++ joinMsgs (x :: rest) := rfl

/-- A message that is already a `" -- "` join of two messages splits off as
two list entries under `joinMsgs`. -/
theorem joinMsgs_append_split (xs : List String) (s t : String) :
    joinMsgs (xs ++ [s ++ " -- " ++ t]) = joinMsgs (xs ++ [s, t]) := by
  induction xs with
  | nil => rfl
  | cons x xs ih =>
    cases xs with
    | nil => simp
    | cons y ys =>
      simp only [List.cons_append, joinMsgs_cons] at ih ⊢
      rw [ih]

@[simp] theorem GoError.self_mem_chain (e : GoError) : e ∈ e.chain := by
  cases e <;> simp [GoError.chain]

/-- Core combination lemma for `multiHandler.Handle`: folding further errors
`es` onto an already-accumulated error `A` yields one error whose message
joins all messages most-recent-first, and whose unwrap chain keeps
everything in `A`'s chain. -/
theorem runErrs_combine (es : List GoError) (A : GoError) :
    ∃ E, runErrs (es.map some) (some A) = some E
      ∧ E.msg = joinMsgs (((A :: es).map GoError.msg).reverse)
      ∧ ∀ x ∈ A.chain, x ∈ E.chain := by
  induction es generalizing A with
  | nil => exact ⟨A, rfl, by simp, fun x hx => hx⟩
  | cons e rest ih =>
    obtain ⟨E, h1, h2, h3⟩ := ih (.wrap (e.msg ++ " -- " ++ A.msg) A)
    refine ⟨E, ?_, ?_, ?_⟩
    · simpa [runErrs, accErr] using h1
    · rw [h2]
      simp only [List.map_cons, List.reverse_cons, List.append_assoc, List.cons_append,
        List.nil_append, GoError.msg]
      exact joinMsgs_append_split _ e.msg A.msg
    · intro x hx
      exact h3 x (by simp [GoError.chain, hx])

/-- Flatness of a child list distributes over appending. -/
theorem flatChildren_append (l1 l2 : List (Option HandlerVal)) :
    flatChildren (l1 ++ l2) = (flatChildren l1 && flatChildren l2) := by
  induction l1 with
  | nil => rfl
  | cons c rest ih =>
    cases c with
    | none => rfl
    | some h => simp [flatChildren, ih, Bool.and_assoc]

/-- The flattening loop of `Multi` produces a flat child list whenever every
concrete input satisfies the construction invariant. -/
theorem multiFlatten_flat (hs : List (Option HandlerVal)) (h : flatInputs hs = true) :
    flatChildren (multiFlatten hs) = true := by
  induction hs with
  | nil => rfl
  | cons c rest ih =>
    simp only [flatInputs, List.all_cons, Bool.and_eq_true] at h
    cases c with
    | none => exact ih h.2
    | some hv =>
      cases hv with
      | leaf e ha w1 w2 w3 w4 => simp [multiFlatten, flatChildren, isMulti, ih h.2]
      | multi ms =>
        have hm : flatChildren ms = true := h.1
        simp [multiFlatten, flatChildren_append, hm, ih h.2]

/-- The rebuild loop of `multiHandler.With` over an all-concrete child list
is the `List.map` of the children's own `With`. -/
theorem mapWith_map_some (cs : List HandlerVal) (as : List HAttr) :
    mapWith (cs.map some) as = cs.map (fun c => c.With as) := by
  induction cs with
  | nil => rfl
  | cons c rest ih => simp [mapWith, ih]

/-- The rebuild loop of `multiHandler.WithSource` over an all-concrete child
list is the `List.map` of the children's own `WithSource`. -/
theorem mapWithSource_map_some (cs : List HandlerVal) (b : Bool) :
    mapWithSource (cs.map some) b = cs.map (fun c => c.WithSource b) := by
  induction cs with
  | nil => rfl
  | cons c rest ih => simp [mapWithSource, ih]

/-- The rebuild loop of `multiHandler.WithLevel` over an all-concrete child
list is the `List.map` of the children's own `WithLevel`. -/
theorem mapWithLevel_map_some (cs : List HandlerVal) (l : Level) :
    mapWithLevel (cs.map some) l = cs.map (fun c => c.WithLevel l) := by
  induction cs with
  | nil => rfl
  | cons c rest ih => simp [mapWithLevel, ih]

/-- The rebuild loop of `multiHandler.WithReplaceFn` over an all-concrete
child list is the `List.map` of the children's own `WithReplaceFn`. -/
theorem mapWithReplaceFn_map_some (cs : List HandlerVal) (fn : HAttr → HAttr) :
    mapWithReplaceFn (cs.map some) fn = cs.map (fun c => c.WithReplaceFn fn) := by
  induction cs with
  | nil => rfl
  | cons c rest ih => simp [mapWithReplaceFn, ih]

/-- Claim C1: for every record and every Multi composite with children `cs`,
`Handle` folds every child's `Handle` result in list order with no
short-circuit on error — the last child's result is always combined in,
whatever the accumulated error (third conjunct); if no child returned an
error the composite returns no error (first conjunct); if exactly one child
returned an error the composite returns exactly that error value (second
conjunct). -/
theorem claim_C1_handle_broadcast (cs : List HandlerVal) (r : Record) :
    ((∀ h ∈ cs, h.Handle r = none) → HandlerVal.Handle (.multi (cs.map some)) r = none)
    ∧ (∀ (pre : List HandlerVal) (h : HandlerVal) (post : List HandlerVal) (e : GoError),
        (∀ h' ∈ pre, h'.Handle r = none) → (∀ h' ∈ post, h'.Handle r = none) →
        h.Handle r = some e →
        HandlerVal.Handle (.multi ((pre ++ h :: post).map some)) r = some e)
    ∧ (∀ h : HandlerVal,
        HandlerVal.Handle (.multi ((cs ++ [h]).map some)) r
          = accErr (h.Handle r) (HandlerVal.Handle (.multi (cs.map some)) r)) := by
  refine ⟨?_, ?_, ?_⟩
  · intro hall
    exact handleChildren_all_none cs r none hall
  · intro pre h post e hpre hpost he
    show handleChildren ((pre ++ h :: post).map some) r none = some e
    rw [List.map_append, handleChildren_append, handleChildren_all_none pre r none hpre]
    simp only [List.map_cons, handleChildren, he, accErr]
    exact handleChildren_all_none post r (some e) hpost
  · intro h
    show handleChildren ((cs ++ [h]).map some) r none = _
    rw [List.map_append, handleChildren_append]
    rfl

/-- Claim C1 witness: with child A failing with "ea" and child B succeeding,
the composite returns A's error; the second conjunct of the claim theorem is
applied at this concrete input. -/
theorem claim_C1_handle_broadcast_wit :
    (leafErr "ea").Handle 0 = some (.base "ea")
    ∧ leafOk.Handle 0 = none
    ∧ HandlerVal.Handle (.multi [some (leafErr "ea"), some leafOk]) 0 = some (.base "ea") := by
  refine ⟨rfl, rfl, ?_⟩
  exact (claim_C1_handle_broadcast [leafErr "ea", leafOk] 0).2.1 [] (leafErr "ea") [leafOk]
    (.base "ea") (by simp) (by simp) rfl

/-- Claim C2 counterexample: with children failing with "ea" then "eb", the
composite's combined error wraps only the previously accumulated error, so
the unwrap chain does not contain the second child's error — refuting
"every one of the underlying child errors is recoverable from the combined
error by unwrapping" (the message does concatenate both, most recent
first). -/
theorem claim_C2_unwrap_cex :
    HandlerVal.Handle (.multi [some (leafErr "ea"), some (leafErr "eb")]) 0
      = some (.wrap "eb -- ea" (.base "ea"))
    ∧ GoError.base "eb" ∉ (GoError.wrap "eb -- ea" (.base "ea")).chain
    ∧ GoError.base "ea" ∈ (GoError.wrap "eb -- ea" (.base "ea")).chain := by
  refine ⟨?_, by decide, by decide⟩
  show handleChildren _ _ _ = _
  simp [handleChildren, leafErr, HandlerVal.Handle, accErr, GoError.msg]

/-- Claim C2 (amended): when two or more children fail with distinct errors,
the composite returns one combined error whose message joins every
discovered error message in reverse-discovery order (most recent first,
separated by " -- "), and the FIRST-discovered child error is recoverable
from the combined error by unwrapping; the later errors are preserved in
the message only. -/
theorem claim_C2_combined_error (cs : List HandlerVal) (r : Record)
    (_hnd : (discoveredErrs cs r).Nodup)
    (hlen : 2 ≤ (discoveredErrs cs r).length) :
    ∃ E, HandlerVal.Handle (.multi (cs.map some)) r = some E
      ∧ E.msg = joinMsgs (((discoveredErrs cs r).map GoError.msg).reverse)
      ∧ ∀ e1, (discoveredErrs cs r).head? = some e1 → e1 ∈ E.chain := by
  have hH : HandlerVal.Handle (.multi (cs.map some)) r
      = runErrs ((discoveredErrs cs r).map some) none := by
    show handleChildren (cs.map some) r none = _
    rw [handleChildren_map_some, runErrs_filterMap]
    rfl
  obtain ⟨e1, tail, hes⟩ : ∃ e1 tail, discoveredErrs cs r = e1 :: tail := by
    cases hcs : discoveredErrs cs r with
    | nil => rw [hcs] at hlen; simp at hlen
    | cons a t => exact ⟨a, t, rfl⟩
  obtain ⟨E, h1, h2, h3⟩ := runErrs_combine tail e1
  refine ⟨E, ?_, ?_, ?_⟩
  · rw [hH, hes]
    simpa [runErrs, accErr] using h1
  · rw [hes]
    exact h2
  · intro x hx
    rw [hes] at hx
    simp only [List.head?_cons, Option.some.injEq] at hx
    subst hx
    exact h3 e1 (GoError.self_mem_chain e1)

/-- Claim C2 witness: two children failing with the distinct errors "ea" and
"eb"; the amended claim theorem is applied at this concrete input. -/
theorem claim_C2_combined_error_wit :
    (discoveredErrs [leafErr "ea", leafErr "eb"] 0).Nodup
    ∧ 2 ≤ (discoveredErrs [leafErr "ea", leafErr "eb"] 0).length
    ∧ ∃ E, HandlerVal.Handle (.multi ([leafErr "ea", leafErr "eb"].map some)) 0 = some E
        ∧ E.msg = joinMsgs (((discoveredErrs [leafErr "ea", leafErr "eb"] 0).map GoError.msg).reverse)
        ∧ ∀ e1, (discoveredErrs [leafErr "ea", leafErr "eb"] 0).head? = some e1 → e1 ∈ E.chain := by
  have hnd : (discoveredErrs [leafErr "ea", leafErr "eb"] 0).Nodup := by decide
  have hlen : 2 ≤ (discoveredErrs [leafErr "ea", leafErr "eb"] 0).length := by decide
  exact ⟨hnd, hlen, claim_C2_combined_error [leafErr "ea", leafErr "eb"] 0 hnd hlen⟩

/-- Claim C3: for every input sequence whose concrete members satisfy the
construction invariant (every `multiHandler` among the inputs is itself
flat, as every composite built by `Multi` is), whenever `Multi` returns a
present handler, that handler satisfies the invariant: if it is a
composite, its child list holds no nil element and no `multiHandler`
element. -/
theorem claim_C3_flatten_invariant (hs : List (Option HandlerVal))
    (h : flatInputs hs = true) :
    ∀ w, Multi hs = some w → flatH w = true := by
  cases hs with
  | nil => intro w hw; simp [Multi] at hw
  | cons a t =>
    cases t with
    | nil =>
      intro w hw
      have ha : a = some w := hw
      subst ha
      simpa [flatInputs] using h
    | cons b rest =>
      intro w hw
      have hw2 : some (HandlerVal.multi (multiFlatten (a :: b :: rest))) = some w := hw
      obtain rfl := Option.some.inj hw2
      exact multiFlatten_flat _ h

/-- Claim C3 witness: inputs holding a nil, a leaf and a nested composite;
the flattened result contains only non-nil leaves.  The claim theorem is
applied at this concrete input. -/
theorem claim_C3_flatten_invariant_wit :
    flatInputs [none, some leafOk, some (.multi [some leafDis, some (leafErr "e")])] = true
    ∧ Multi [none, some leafOk, some (.multi [some leafDis, some (leafErr "e")])]
        = some (.multi [some leafOk, some leafDis, some (leafErr "e")])
    ∧ flatH (.multi [some leafOk, some leafDis, some (leafErr "e")]) = true := by
  refine ⟨rfl, rfl, ?_⟩
  exact claim_C3_flatten_invariant
    [none, some leafOk, some (.multi [some leafDis, some (leafErr "e")])] rfl
    (.multi [some leafOk, some leafDis, some (leafErr "e")]) rfl

/-- Claim C4: a composite's `Enabled` is the conjunction of its children's
`Enabled` results (first conjunct: true iff every child is enabled); an
empty child list is enabled (second conjunct); and as soon as some child is
disabled the result is false for every possible suffix, i.e. the children
past the first disabled one are never consulted (third conjunct). -/
theorem claim_C4_enabled_all (cs : List HandlerVal) (l : Level) :
    (HandlerVal.Enabled (.multi (cs.map some)) l = cs.all (fun h => h.Enabled l))
    ∧ HandlerVal.Enabled (.multi []) l = true
    ∧ (∀ (pre : List HandlerVal) (h : HandlerVal) (rest : List HandlerVal),
        h.Enabled l = false →
        HandlerVal.Enabled (.multi ((pre ++ h :: rest).map some)) l = false) := by
  refine ⟨enabledChildren_map_some cs l, rfl, ?_⟩
  intro pre h rest hh
  show enabledChildren ((pre ++ h :: rest).map some) l = false
  rw [List.map_append, List.map_cons]
  exact enabledChildren_shortCircuit pre h (rest.map some) l hh

/-- Claim C4 witness: a composite of an enabled and a disabled leaf is
disabled; the third conjunct of the claim theorem is applied at this
concrete input. -/
theorem claim_C4_enabled_all_wit :
    leafDis.Enabled 0 = false
    ∧ HandlerVal.Enabled (.multi [some leafOk, some leafDis]) 0 = false :=
  ⟨rfl, (claim_C4_enabled_all [leafOk, leafDis] 0).2.2 [leafOk] leafDis [] rfl⟩

/-- Claim C5 counterexample: `Multi(nil, H)` leaves exactly one non-absent
handler after skipping the nil input, yet the result is a composite
wrapping `H`, not `H` itself — refuting "this identity collapse applies
whenever exactly one non-absent handler remains after skipping absent
inputs". -/
theorem claim_C5_collapse_cex :
    Multi [none, some leafOk] = some (.multi [some leafOk])
    ∧ Multi [none, some leafOk] ≠ some leafOk := by
  refine ⟨rfl, ?_⟩
  intro hcontra
  have h1 : HandlerVal.multi [some leafOk] = leafOk := Option.some.inj hcontra
  have h2 := congrArg isMulti h1
  simp [isMulti, leafOk] at h2

/-- Claim C5 (amended): `Multi` with zero arguments returns the absent
handler; `Multi` with exactly one argument returns that argument unchanged
(whether absent or not); with two or more arguments the result is always a
composite, even when only one non-absent handler remains after skipping
absent inputs. -/
theorem claim_C5_collapse_amended (c : Option HandlerVal) (l : List (Option HandlerVal)) :
    Multi [] = none
    ∧ Multi [c] = c
    ∧ (2 ≤ l.length → isMultiO (Multi l) = true) := by
  refine ⟨rfl, rfl, ?_⟩
  intro hl
  cases l with
  | nil => simp at hl
  | cons a t =>
    cases t with
    | nil => simp at hl
    | cons b rest => rfl

/-- Claim C5 witness: the amended claim theorem applied at one-argument and
two-argument concrete inputs. -/
theorem claim_C5_collapse_amended_wit :
    2 ≤ ([none, some leafOk] : List (Option HandlerVal)).length
    ∧ Multi [some leafDis] = some leafDis
    ∧ isMultiO (Multi [none, some leafOk]) = true :=
  ⟨by decide, (claim_C5_collapse_amended (some leafDis) [none, some leafOk]).2.1,
   (claim_C5_collapse_amended (some leafDis) [none, some leafOk]).2.2 (by decide)⟩

/-- Claim C6: each configuration operation on a Multi composite applies the
identical operation to every child (a `List.map` over the children) and
re-wraps the resulting children with the same `Multi` construction logic,
so flattening and collapse rules apply; the original composite's child list
is unchanged, which is inherent in this purely functional model (no
operation mutates any value). -/
theorem claim_C6_config_rebuild (cs : List HandlerVal) (as : List HAttr) (b : Bool)
    (lv : Level) (fn : HAttr → HAttr) :
    HandlerVal.With (.multi (cs.map some)) as = Multi (cs.map fun c => c.With as)
    ∧ HandlerVal.WithSource (.multi (cs.map some)) b = Multi (cs.map fun c => c.WithSource b)
    ∧ HandlerVal.WithLevel (.multi (cs.map some)) lv = Multi (cs.map fun c => c.WithLevel lv)
    ∧ HandlerVal.WithReplaceFn (.multi (cs.map some)) fn
        = Multi (cs.map fun c => c.WithReplaceFn fn) := by
  refine ⟨?_, ?_, ?_, ?_⟩
  · show Multi (mapWith (cs.map some) as) = _
    rw [mapWith_map_some]
  · show Multi (mapWithSource (cs.map some) b) = _
    rw [mapWithSource_map_some]
  · show Multi (mapWithLevel (cs.map some) lv) = _
    rw [mapWithLevel_map_some]
  · show Multi (mapWithReplaceFn (cs.map some) fn) = _
    rw [mapWithReplaceFn_map_some]

/-- Claim C10: a Multi composite with an empty flattened child list is a
present handler obtainable as `Multi(nil, nil)`; its `Enabled` is true at
every level, its `Handle` returns no error for every record, and each of
its configuration operations rebuilds through `Multi` of an empty list and
therefore returns the absent handler. -/
theorem claim_C10_empty_composite (l : Level) (r : Record) (as : List HAttr)
    (b : Bool) (fn : HAttr → HAttr) :
    Multi [none, none] = some (.multi [])
    ∧ HandlerVal.Enabled (.multi []) l = true
    ∧ HandlerVal.Handle (.multi []) r = none
    ∧ HandlerVal.With (.multi []) as = none
    ∧ HandlerVal.WithSource (.multi []) b = none
    ∧ HandlerVal.WithLevel (.multi []) l = none
    ∧ HandlerVal.WithReplaceFn (.multi []) fn = none :=
  ⟨rfl, rfl, rfl, rfl, rfl, rfl, rfl⟩


/-- Claim C7: `New` with an empty key yields the absent attribute; for an
attribute built by `New`, `WithKey("")` yields the absent attribute, the
untyped nil replacement yields the absent attribute, and `WithValue(x)`
yields a new attribute with the same key and value `x` exactly when `x`'s
runtime type equals the declared type, and the absent attribute
otherwise. -/
theorem claim_C7_attr_type_identity (k : String) (v : GoValue) :
    New "" v = none
    ∧ (∀ a, New k v = some a →
        (a.WithKey "" = none
         ∧ a.WithValue none = none
         ∧ ∀ x : GoValue,
             (typeOf x = typeOf v → a.WithValue (some x) = some (.mk k (typeOf v) x))
             ∧ (typeOf x ≠ typeOf v → a.WithValue (some x) = none))) := by
  refine ⟨rfl, ?_⟩
  intro a ha
  by_cases hk : k = ""
  · subst hk
    simp [New] at ha
  · have ha2 : a = .mk k (typeOf v) v := by
      rw [New, if_neg hk] at ha
      exact (Option.some.inj ha).symm
    subst ha2
    refine ⟨rfl, rfl, ?_⟩
    intro x
    constructor
    · intro ht
      simp [AttrVal.WithValue, AttrVal.t, ht, New, AttrVal.key, hk]
    · intro ht
      simp [AttrVal.WithValue, AttrVal.t, ht]

/-- Claim C7 witness: the claim theorem applied at the spec's concrete
examples: key "k" with value 5, replacement values 7 (same type) and "str"
(type mismatch). -/
theorem claim_C7_attr_type_identity_wit :
    New "" (.vint 5) = none
    ∧ New "k" (.vint 5) = some (.mk "k" .tint (.vint 5))
    ∧ AttrVal.WithKey (.mk "k" .tint (.vint 5)) "" = none
    ∧ AttrVal.WithValue (.mk "k" .tint (.vint 5)) (some (.vint 7)) = some (.mk "k" .tint (.vint 7))
    ∧ AttrVal.WithValue (.mk "k" .tint (.vint 5)) (some (.vstr "str")) = none := by
  obtain ⟨h0, h1⟩ := claim_C7_attr_type_identity "k" (.vint 5)
  obtain ⟨h2, h3, h4⟩ := h1 (.mk "k" .tint (.vint 5)) rfl
  exact ⟨h0, rfl, h2, (h4 (.vint 7)).1 rfl, (h4 (.vstr "str")).2 (by decide)⟩

/-- Claim C8 counterexample: the three-level attribute chain a→b→c (each
value the next attribute) serializes with the key "c" dropped: the path a/b
holds the bare value 1 and the path a/b/c resolves to nothing — refuting
"at any nesting depth, it serializes recursively as a nested mapping from
each nested key to its nested value rather than a flat or key-dropping
structure". -/
theorem claim_C8_nested_key_drop_cex :
    attrMarshalJSON (.mk "a" .tattr (.vattr (.mk "b" .tattr (.vattr (.mk "c" .tint (.vint 1))))))
      = [("a", .obj [("b", .num 1)])]
    ∧ pathLookup (.obj (attrMarshalJSON (.mk "a" .tattr (.vattr (.mk "b" .tattr
        (.vattr (.mk "c" .tint (.vint 1)))))))) ["a", "b", "c"] = none
    ∧ pathLookup (.obj (attrMarshalJSON (.mk "a" .tattr (.vattr (.mk "b" .tattr
        (.vattr (.mk "c" .tint (.vint 1)))))))) ["a", "b"] = some (.num 1) := by
  have h : attrMarshalJSON (.mk "a" .tattr (.vattr (.mk "b" .tattr (.vattr (.mk "c" .tint (.vint 1))))))
      = [("a", .obj [("b", .num 1)])] := by
    simp [attrMarshalJSON, mapAttrEntry, mapAttrsGo, encodeValue, mapSet]
  refine ⟨h, ?_, ?_⟩ <;> rw [h] <;> rfl

/-- Claim C8 (amended): serialization yields a single-entry mapping
{key: value}; a flat value gives a one-level single-key mapping; a value
that is one attribute with a flat inner value gives a two-level mapping;
a value that is a sequence of attributes maps through the recursive
`mapAttrs`; but when a nested attribute's value is itself an attribute, the
inner attribute's key is dropped and its bare value is stored, so nesting
through single-attribute values is not a faithful nested mapping beyond the
first level. -/
theorem claim_C8_serialization_shape (k k2 : String) (t t2 : GoType) (v : GoValue)
    (u : AttrVal) (l : List (Option AttrVal)) :
    (isFlat v = true → attrMarshalJSON (.mk k t v) = [(k, encodeValue v)])
    ∧ (isFlat v = true →
        attrMarshalJSON (.mk k t (.vattr (.mk k2 t2 v))) = [(k, .obj [(k2, encodeValue v)])])
    ∧ attrMarshalJSON (.mk k t (.vattr (.mk k2 t2 (.vattr u))))
        = [(k, .obj [(k2, encodeValue u.value)])]
    ∧ attrMarshalJSON (.mk k t (.vattrs l)) = [(k, .obj (mapAttrs l))] := by
  refine ⟨?_, ?_, ?_, ?_⟩
  · intro hv
    cases v <;> simp_all [isFlat, attrMarshalJSON, encodeValue]
  · intro hv
    cases v <;> simp_all [isFlat, attrMarshalJSON, mapAttrEntry, mapAttrsGo, encodeValue, mapSet]
  · cases u with
    | mk k3 t3 v3 =>
      simp [attrMarshalJSON, mapAttrEntry, mapAttrsGo, mapSet, AttrVal.value]
  · simp [attrMarshalJSON, mapAttrs]

/-- Claim C8 witness: the amended claim theorem applied at a flat attribute
and a one-level nested attribute. -/
theorem claim_C8_serialization_shape_wit :
    isFlat (.vint 7) = true
    ∧ attrMarshalJSON (.mk "k" .tint (.vint 7)) = [("k", .num 7)]
    ∧ attrMarshalJSON (.mk "g" .tattr (.vattr (.mk "k" .tint (.vint 7))))
        = [("g", .obj [("k", .num 7)])] := by
  have h1 := (claim_C8_serialization_shape "k" "" .tint .tint (.vint 7)
    (.mk "x" .tint (.vint 0)) []).1 rfl
  have h2 := (claim_C8_serialization_shape "g" "k" .tattr .tint (.vint 7)
    (.mk "x" .tint (.vint 0)) []).2.1 rfl
  have he : encodeValue (.vint 7) = .num 7 := by simp [encodeValue]
  rw [he] at h1 h2
  exact ⟨rfl, h1, h2⟩

/-- Claim C9 (code evaluation at the failing input): `mapAttrs` — the
serialization used for attribute values — skips a nil member silently and
produces the same mapping as with the nil member removed, but
`Attrs.MarshalJSON` dereferences each member with no nil check, so on a
sequence holding an absent member it panics (modelled as `none`) instead of
completing. -/
theorem claim_C9_nil_member_panic :
    mapAttrs [some (.mk "k" .tint (.vint 5)), none] = [("k", .num 5)]
    ∧ mapAttrs [some (.mk "k" .tint (.vint 5))] = [("k", .num 5)]
    ∧ AttrsMarshalJSON [some (.mk "k" .tint (.vint 5)), none] = none
    ∧ AttrsMarshalJSON [some (.mk "k" .tint (.vint 5))] = some [("k", .num 5)] := by
  refine ⟨?_, ?_, rfl, ?_⟩ <;>
    simp [mapAttrs, mapAttrsGo, mapAttrEntry, mapSet, AttrsMarshalJSON, attrsMarshalGo,
      encodeValue, AttrVal.key, AttrVal.value]

end Logx

